import Mathlib

/-!
Verification of the completion-and-navigation core described in the
repository specification, checked against the behaviour pinned down by the
unit tests in `unittests/clangd/CodeCompleteTests.cpp`.  The engine sources
(CodeComplete.cpp, index/Merge.cpp, index/MemIndex.cpp) are not part of the
source tree here, so the definitions below are modelled from the spec
(sections 3, 4.2, 4.3, 4.4, 7 and 8), with doc comments saying so.
The first half of the file holds the definitions (data model, index merge,
completion pipeline, signature help, and the concrete scenarios mirroring
the unit tests); the second half holds the theorems.
-/

namespace Clangd

/-- Provenance of a symbol: live per-workspace index vs. prebuilt index. -/
inductive SymOrigin where
  | dynamic
  | static
deriving DecidableEq

/-- Kind of a symbol, as in the spec data model (section 3). -/
inductive SymKind where
  | function
  | classType
  | varDecl
  | preprocDef
  | keywordKind
  | other
deriving DecidableEq

/-- Modelled from the spec: the `Symbol` record of section 3 — the engine
sources defining `Symbol` are not under the source tree; `id` is the opaque
stable identity (the sole merge key), `name`/`scope` the unqualified name and
qualifying path, `kind` its category. -/
structure Symbol where
  id : String
  name : String
  scope : String
  kind : SymKind
deriving DecidableEq

/-- Keep-first deduplication by a key function, carrying the set of keys
already emitted; used both by the index builder (key = `Symbol.id`) and by
the completion engine (key = name, scope, overload signature). -/
def dedupByAux {α β : Type} [DecidableEq β] (k : α → β) :
    List β → List α → List α
  | _, [] => []
  | seen, a :: as =>
    if k a ∈ seen then dedupByAux k seen as
    else a :: dedupByAux k (k a :: seen) as

/-- Keep-first deduplication by a key function. -/
def dedupBy {α β : Type} [DecidableEq β] (k : α → β) (l : List α) : List α :=
  dedupByAux k [] l

/-- Modelled from the spec: `buildIndex(symbols)` of section 6 — the MemIndex
sources are not under the source tree; the builder accepts Symbols in any
order and deduplicates by `id` (section 4.1). -/
def buildIndex (syms : List Symbol) : List Symbol :=
  dedupBy Symbol.id syms

/-- Modelled from the spec: an index `fuzzyFind` restricted to a scope
(section 4.1's query scope-restriction, as exercised by the scope-qualified
completion tests). -/
def fuzzyFindIdx (idx : List Symbol) (scopeQ : String) : List Symbol :=
  idx.filter (fun s => decide (s.scope = scopeQ))

/-- Modelled from the spec: MergedIndex `fuzzyFind` (section 4.2) — query
every source independently, keep exactly one Symbol per `id`, preferring the
higher-priority (Dynamic) source, and tag every result with its true
provenance. -/
def mergedFuzzyFind (dyn stat : List Symbol) (scopeQ : String) :
    List (Symbol × SymOrigin) :=
  let d := fuzzyFindIdx dyn scopeQ
  let s := fuzzyFindIdx stat scopeQ
  d.map (fun x => (x, SymOrigin.dynamic)) ++
    (s.filter (fun x => d.all (fun y => decide (¬ y.id = x.id)))).map
      (fun x => (x, SymOrigin.static))

/-- Kind of a completion candidate, as distinguished by the candidate
collection rules of spec section 4.3 step 2. -/
inductive CandKind where
  | member
  | localSym
  | globalSym
  | preproc
  | pattern
  | keywordKind
deriving DecidableEq

/-- Access specifier carried by member candidates (spec sections 4.3 and 8). -/
inductive Access where
  | pub
  | prot
  | priv
deriving DecidableEq

/-- Modelled from the spec: a `CompletionCandidate` of section 3 — the engine
sources are not under the source tree.  It wraps either a Frontend-native
candidate (with access and provenance information) or an index symbol. -/
structure Candidate where
  name : String
  scope : String
  kind : CandKind
  access : Access
  callable : Bool
  params : List String
  sig : String
  doc : String
  fromIndex : Bool
  fromPreamble : Bool
deriving DecidableEq

/-- Insert-text format of a completion item (spec section 3). -/
inductive InsertFormat where
  | plainText
  | snippet
deriving DecidableEq

/-- A single item of a `CompletionList` (spec section 3). -/
structure CompletionItem where
  label : String
  insertText : String
  insertTextFormat : InsertFormat
  filterText : String
  documentation : String
deriving DecidableEq

/-- Result of a completion request (spec section 3). -/
structure CompletionList where
  items : List CompletionItem
  isIncomplete : Bool
deriving DecidableEq

/-- The recognized completion options (spec section 4.3). -/
structure CodeCompleteOptions where
  Limit : Nat
  IncludeGlobals : Bool
  IncludeMacros : Bool
  IncludeBriefComments : Bool
  IncludeCodePatterns : Bool
  IncludeIneligibleResults : Bool
  EnableSnippets : Bool
deriving DecidableEq

/-- Completion context at the cursor, classified by the Frontend
(spec section 4.3 step 1): member access (with a flag telling whether the
cursor is inside the accessed class's own method body), unqualified, or
qualified-scope. -/
inductive CompletionContext where
  | memberAccess (insideClass : Bool)
  | unqualified
  | qualifiedScope (scopeQ : String)
deriving DecidableEq

/-- Is `c` a word-head character of the candidate name, given the previous
character: start of the name, an upper-case letter after a non-upper-case
one, or any character following an underscore. -/
def isWordHead (prev c : Char) : Bool :=
  (c.isUpper && !prev.isUpper) || prev = '_'

/-- Modelled from the spec: fuzzy subsequence matching with a match-quality
score (sections 4.3 steps 5-6, 8 and the glossary) — the fuzzy matcher
sources are not under the source tree.  The pattern (already lower-cased) is
matched case-insensitively as a subsequence of the name, greedily; a pattern
character matched at a word-head position contributes 2 to the quality,
otherwise 1; `none` means the name does not match. -/
def fuzzyQual : List Char → List Char → Char → Option Nat
  | [], _, _ => some 0
  | _ :: _, [], _ => none
  | p :: ps, w :: ws, prev =>
    if p = w.toLower then
      match fuzzyQual ps ws w with
      | none => none
      | some q => some (q + (if isWordHead prev w then 2 else 1))
    else fuzzyQual (p :: ps) ws w

/-- Does the candidate name fuzzy-match the typed token? (empty token
matches everything). -/
def fuzzyMatches (typed name : String) : Bool :=
  (fuzzyQual (typed.data.map Char.toLower) name.data '_').isSome

/-- Fuzzy-match quality of a candidate name against the typed token. -/
def qualityOf (typed name : String) : Nat :=
  (fuzzyQual (typed.data.map Char.toLower) name.data '_').getD 0

/-- Rank of the access specifier in the equal-relevance tie-break of spec
section 8: private before protected before public. -/
def accessRank : Access → Nat
  | Access.priv => 2
  | Access.prot => 1
  | Access.pub => 0

/-- Modelled from the spec: the descending comparison used to sort surviving
candidates (section 4.3 steps 6-7) — fuzzy-match quality first, then the
access tie-break of section 8 on equal quality; the comparison is non-strict
on full ties so that insertion sort is stable. -/
def rankBefore (typed : String) (a b : Candidate) : Bool :=
  qualityOf typed b.name < qualityOf typed a.name ||
    (qualityOf typed a.name = qualityOf typed b.name &&
      accessRank b.access ≤ accessRank a.access)

/-- Modelled from the spec: per-context candidate eligibility (section 4.3
step 2 and the error policy of section 7): member completion yields only
members of the accessed type, honoring access specifiers unless
`IncludeIneligibleResults` or the cursor sits inside the class's own method
body; unqualified completion yields local names and keywords always, globals
only under `IncludeGlobals`, preprocessor names only under `IncludeMacros`,
code patterns only under `IncludeCodePatterns`; qualified-scope completion
yields the names declared in exactly that scope.  A malformed candidate
(empty name) is always dropped (section 7 case 4). -/
def eligible (ctx : CompletionContext) (opts : CodeCompleteOptions)
    (c : Candidate) : Bool :=
  decide (¬ c.name = "") &&
    match ctx with
    | CompletionContext.memberAccess inside =>
      match c.kind with
      | CandKind.member =>
        decide (c.access = Access.pub) || inside || opts.IncludeIneligibleResults
      | _ => false
    | CompletionContext.unqualified =>
      match c.kind with
      | CandKind.member => false
      | CandKind.localSym => true
      | CandKind.globalSym => opts.IncludeGlobals
      | CandKind.preproc => opts.IncludeMacros
      | CandKind.pattern => opts.IncludeCodePatterns
      | CandKind.keywordKind => true
    | CompletionContext.qualifiedScope s =>
      match c.kind with
      | CandKind.localSym => decide (c.scope = s)
      | CandKind.globalSym => decide (c.scope = s)
      | _ => false

/-- View of an index symbol as a completion candidate (spec section 3:
a CompletionCandidate wraps an index Symbol). -/
def symToCand (s : Symbol) : Candidate :=
  { name := s.name
    scope := s.scope
    kind := CandKind.globalSym
    access := Access.pub
    callable := decide (s.kind = SymKind.function)
    params := []
    sig := ""
    doc := ""
    fromIndex := true
    fromPreamble := false }

/-- Modelled from the spec: candidate collection (section 4.3 step 2) — the
engine sources are not under the source tree.  Frontend candidates eligible
in the context come first; for unqualified and qualified-scope contexts
(never for member access) the index, when supplied, contributes candidates
scoped to the relevant scope.  When an index is supplied for a
qualified-scope completion, Frontend candidates sourced from the preamble
(included headers) are suppressed — the index replaces them, as pinned down
by the IndexSuppressesPreambleCompletions test. -/
def collect (ctx : CompletionContext) (opts : CodeCompleteOptions)
    (frontend : List Candidate) (idx : Option (String → List Symbol)) :
    List Candidate :=
  let base := frontend.filter (eligible ctx opts)
  match ctx, idx with
  | CompletionContext.memberAccess _, _ => base
  | CompletionContext.unqualified, none => base
  | CompletionContext.unqualified, some q =>
    base ++ ((q "").filter (fun s => decide (¬ s.name = ""))).map symToCand
  | CompletionContext.qualifiedScope _, none => base
  | CompletionContext.qualifiedScope s, some q =>
    base.filter (fun c => !c.fromPreamble) ++
      ((q s).filter (fun s => decide (¬ s.name = ""))).map symToCand

/-- Deduplication key of spec section 4.3 step 3: name, scope, and overload
signature. -/
def candKey (c : Candidate) : String × String × String :=
  (c.name, c.scope, c.sig)

/-- The surviving candidates of a request: collected, deduplicated by
(name, scope, signature) keeping the first (Frontend-preferred) occurrence,
then fuzzy-filtered against the typed token (spec section 4.3 steps 2-5). -/
def survivingCandidates (ctx : CompletionContext) (opts : CodeCompleteOptions)
    (frontend : List Candidate) (typed : String)
    (idx : Option (String → List Symbol)) : List Candidate :=
  (dedupBy candKey (collect ctx opts frontend idx)).filter
    (fun c => fuzzyMatches typed c.name)

/-- Snippet placeholder text for a parameter list, numbering from `i`. -/
def placeholderText (i : Nat) : List String → String
  | [] => ""
  | [p] => "$\x7b" ++ toString i ++ ":" ++ p ++ "\x7d"
  | p :: q :: ps =>
    "$\x7b" ++ toString i ++ ":" ++ p ++ "\x7d, " ++
      placeholderText (i + 1) (q :: ps)

/-- Modelled from the spec: rendering of a candidate as a CompletionItem
(section 4.3 steps 4, 9 and 10) — `filterText` is the unqualified name; with
`EnableSnippets` a callable candidate gets a snippet insert form with one
placeholder per parameter (or `()` when it has none), otherwise the plain
name is inserted; documentation is attached only under
`IncludeBriefComments`. -/
def render (opts : CodeCompleteOptions) (c : Candidate) : CompletionItem :=
  let plainItem : Bool := !(opts.EnableSnippets && c.callable)
  { label := c.name
    insertText :=
      if plainItem then c.name
      else if c.params = [] then c.name ++ "()"
      else c.name ++ "(" ++ placeholderText 1 c.params ++ ")"
    insertTextFormat :=
      if plainItem then InsertFormat.plainText else InsertFormat.snippet
    filterText := c.name
    documentation := if opts.IncludeBriefComments then c.doc else "" }

/-- The surviving candidates sorted descending by score, stable on ties
(spec section 4.3 step 7). -/
def sortedCandidates (ctx : CompletionContext) (opts : CodeCompleteOptions)
    (frontend : List Candidate) (typed : String)
    (idx : Option (String → List Symbol)) : List Candidate :=
  List.insertionSort (fun a b => rankBefore typed a b = true)
    (survivingCandidates ctx opts frontend typed idx)

/-- Modelled from the spec: the CompletionEngine pipeline of section 4.3 —
the engine sources are not under the source tree.  Collect, deduplicate,
fuzzy-filter, sort descending by score (stable on ties), truncate to `Limit`
when `Limit > 0` and set `isIncomplete` accordingly, then render items. -/
def complete (ctx : CompletionContext) (opts : CodeCompleteOptions)
    (frontend : List Candidate) (typed : String)
    (idx : Option (String → List Symbol)) : CompletionList :=
  let sorted := sortedCandidates ctx opts frontend typed idx
  if 0 < opts.Limit ∧ opts.Limit < sorted.length then
    { items := (sorted.take opts.Limit).map (render opts), isIncomplete := true }
  else
    { items := sorted.map (render opts), isIncomplete := false }

/-- One overload in a signature-help result (spec section 3). -/
structure SignatureInformation where
  label : String
  parameters : List String
deriving DecidableEq

/-- Result of a signature-help request (spec section 3). -/
structure SignatureHelp where
  signatures : List SignatureInformation
  activeSignature : Nat
  activeParameter : Nat
deriving DecidableEq

/-- Modelled from the spec: the active-parameter computation of section 4.4 —
the engine sources are not under the source tree.  It scans the argument-list
text between the call's opening parenthesis and the cursor, tracking the
nesting depth of parentheses as a natural number and counting the commas met
at depth zero. -/
def countTopCommas : List Char → Nat → Nat
  | [], _ => 0
  | c :: cs, d =>
    if c = '(' then countTopCommas cs (d + 1)
    else if c = ')' then countTopCommas cs (d - 1)
    else if c = ',' then
      (if d = 0 then countTopCommas cs d + 1 else countTopCommas cs d)
    else countTopCommas cs d

/-- Modelled from the spec: the SignatureHelpEngine of section 4.4 —
signatures are reported in Frontend enumeration order, `activeSignature` is
always 0, `activeParameter` counts the top-level commas before the cursor;
with no enclosing call (no overloads) the result is absent, per the error
policy of sections 4.4 and 7. -/
def signatureHelp (overloads : List SignatureInformation)
    (argsBefore : String) : Option SignatureHelp :=
  match overloads with
  | [] => none
  | _ :: _ =>
    some
      { signatures := overloads
        activeSignature := 0
        activeParameter := countTopCommas argsBefore.data 0 }

/-- Contribution of one character to the parenthesis nesting depth. -/
def chDelta (c : Char) : Int :=
  if c = '(' then 1 else if c = ')' then -1 else 0

/-- Net parenthesis nesting depth of a piece of text, as an integer. -/
def chDepth (l : List Char) : Int :=
  (l.map chDelta).sum

/-- The claim's own characterization of the active parameter: the number of
comma positions before the cursor whose preceding text has net parenthesis
depth zero — commas inside nested balanced parenthesized sub-expressions sit
at positive depth and do not count.  Stated over a starting depth `d` so it
can be compared with the engine's scan. -/
def topCommaPos (cs : List Char) (d : Int) : Nat :=
  (List.range cs.length).countP
    (fun i => decide (cs[i]? = some ',' ∧ d + chDepth (cs.take i) = 0))

/-- Well-formedness of the scanned argument text: the parenthesis depth,
started at `d`, never goes negative — true of any text that follows the
opening parenthesis of the enclosing call. -/
def depthOk : List Char → Int → Bool
  | [], _ => true
  | c :: cs, d => decide (0 ≤ d + chDelta c) && depthOk cs (d + chDelta c)

/-- A Frontend member candidate of class `sc`. -/
def memberCand (n sc : String) (a : Access) (isFn : Bool) : Candidate :=
  { name := n
    scope := sc
    kind := CandKind.member
    access := a
    callable := isFn
    params := []
    sig := if isFn then "()" else ""
    doc := ""
    fromIndex := false
    fromPreamble := false }

/-- A Frontend global-scope candidate. -/
def globalCand (n : String) (isFn : Bool) : Candidate :=
  { name := n
    scope := ""
    kind := CandKind.globalSym
    access := Access.pub
    callable := isFn
    params := []
    sig := if isFn then "()" else ""
    doc := ""
    fromIndex := false
    fromPreamble := false }

/-- A Frontend function-local candidate, in scope `sc`. -/
def localCand (n sc : String) : Candidate :=
  { name := n
    scope := sc
    kind := CandKind.localSym
    access := Access.pub
    callable := false
    params := []
    sig := ""
    doc := ""
    fromIndex := false
    fromPreamble := false }

/-- A Frontend preprocessor-name candidate. -/
def preprocCand (n : String) : Candidate :=
  { name := n
    scope := ""
    kind := CandKind.preproc
    access := Access.pub
    callable := false
    params := []
    sig := ""
    doc := ""
    fromIndex := false
    fromPreamble := false }

/-- Options with everything off and no limit. -/
def plainOpts : CodeCompleteOptions :=
  { Limit := 0
    IncludeGlobals := false
    IncludeMacros := false
    IncludeBriefComments := false
    IncludeCodePatterns := false
    IncludeIneligibleResults := false
    EnableSnippets := false }

/-- The `CompletionTest.Limit` scenario: members AAA, BBB, CCC completed
after a dot with `Limit = 2`. -/
def limitOpts : CodeCompleteOptions :=
  { plainOpts with Limit := 2 }

def feLimit : List Candidate :=
  [memberCand "AAA" "ClassWithMembers" Access.pub true,
   memberCand "BBB" "ClassWithMembers" Access.pub true,
   memberCand "CCC" "ClassWithMembers" Access.pub true]

/-- The `TestAfterDotCompletion` scenario: a member-access completion in a
file that also declares globals, a preprocessor name, and local names, with
`IncludeGlobals` and `IncludeMacros` both on. -/
def globalOpts : CodeCompleteOptions :=
  { plainOpts with IncludeGlobals := true, IncludeMacros := true }

def feAfterDot : List Candidate :=
  [memberCand "method" "ClassWithMembers" Access.pub true,
   memberCand "field" "ClassWithMembers" Access.pub false,
   memberCand "private_field" "ClassWithMembers" Access.priv false,
   globalCand "global_var" false,
   globalCand "global_func" true,
   globalCand "GlobalClass" false,
   preprocCand "MACRO",
   localCand "LocalClass" "",
   localCand "local_var" ""]

/-- The `StaticAndDynamicIndex` scenario: `ns::foo` in the dynamic index,
`ns::XYZ` in the static index. -/
def fooSym : Symbol :=
  { id := "ns::foo", name := "foo", scope := "ns", kind := SymKind.function }

def xyzSym : Symbol :=
  { id := "ns::XYZ", name := "XYZ", scope := "ns", kind := SymKind.classType }

/-- The `SignatureHelpTest.ActiveArg` scenario: the single overload of
`baz`, with the cursor after `baz(baz(1,2,3), `. -/
def bazSig : SignatureInformation :=
  { label := "baz(int a, int b, int c) -> int"
    parameters := ["int a", "int b", "int c"] }

/-- The `FuzzyRanking` scenario: members BigBang, Babble, Ball filtered by
the typed token `bb`. -/
def feFuzzy : List Candidate :=
  [memberCand "BigBang" "fake" Access.pub false,
   memberCand "Babble" "fake" Access.pub false,
   memberCand "Ball" "fake" Access.pub false]

/-- The `Priorities` scenario: class Foo with a public, a protected and a
private method. -/
def feFoo : List Candidate :=
  [memberCand "pub" "Foo" Access.pub true,
   memberCand "prot" "Foo" Access.prot true,
   memberCand "priv" "Foo" Access.priv true]

/-- The `NoDuplicates` scenario: the class `Adapter` seen by two lookup
passes (the second pass contributes an index-sourced duplicate with the
same name, scope and overload signature), plus its destructor. -/
def adapterCand (fromIdx : Bool) : Candidate :=
  { name := "Adapter"
    scope := ""
    kind := CandKind.localSym
    access := Access.pub
    callable := true
    params := []
    sig := "()"
    doc := ""
    fromIndex := fromIdx
    fromPreamble := false }

def tildeAdapterCand : Candidate :=
  { name := "~Adapter"
    scope := ""
    kind := CandKind.localSym
    access := Access.pub
    callable := true
    params := []
    sig := "()"
    doc := ""
    fromIndex := false
    fromPreamble := false }

def feAdapter : List Candidate :=
  [adapterCand false, tildeAdapterCand, adapterCand true]

/-- The `NoIndex` scenario: namespace `ns` declares only `Local`, and no
index is supplied. -/
def feLocalNs : List Candidate := [localCand "Local" "ns"]

/-- The `IndexSuppressesPreambleCompletions` scenario: `ns::local` declared
in the main file, `ns::preamble` sourced from an included header, and an
index holding `ns::index`. -/
def feWithPreamble : List Candidate :=
  [localCand "local" "ns",
   { localCand "preamble" "ns" with fromPreamble := true }]

def indexSymNs : Symbol :=
  { id := "ns::index", name := "index", scope := "ns", kind := SymKind.varDecl }

def idxNs : String → List Symbol :=
  fun s => if s = "ns" then [indexSymNs] else []

theorem dedupByAux_sublist {α β : Type} [DecidableEq β] (k : α → β) :
    ∀ (seen : List β) (l : List α), List.Sublist (dedupByAux k seen l) l
  | _, [] => List.Sublist.refl _
  | seen, a :: as => by
    rw [dedupByAux]
    by_cases h : k a ∈ seen
    · simp only [if_pos h]
      exact (dedupByAux_sublist k seen as).cons a
    · simp only [if_neg h]
      exact (dedupByAux_sublist k _ as).cons₂ a

theorem dedupBy_sublist {α β : Type} [DecidableEq β] (k : α → β)
    (l : List α) : List.Sublist (dedupBy k l) l :=
  dedupByAux_sublist k [] l

theorem dedupByAux_keys_fresh {α β : Type} [DecidableEq β] (k : α → β) :
    ∀ (seen : List β) (l : List α) (a : α),
      a ∈ dedupByAux k seen l → k a ∉ seen
  | _, [], a => by
    rw [dedupByAux]
    intro h
    exact absurd h (List.not_mem_nil a)
  | seen, b :: bs, a => by
    rw [dedupByAux]
    by_cases h : k b ∈ seen
    · simp only [if_pos h]
      exact dedupByAux_keys_fresh k seen bs a
    · simp only [if_neg h, List.mem_cons]
      rintro (rfl | ha)
      · exact h
      · have := dedupByAux_keys_fresh k _ bs a ha
        intro hk
        exact this (List.mem_cons_of_mem _ hk)

theorem pairwise_dedupByAux {α β : Type} [DecidableEq β] (k : α → β) :
    ∀ (seen : List β) (l : List α),
      (dedupByAux k seen l).Pairwise (fun a b => k a ≠ k b)
  | _, [] => List.Pairwise.nil
  | seen, a :: as => by
    rw [dedupByAux]
    by_cases h : k a ∈ seen
    · simp only [if_pos h]
      exact pairwise_dedupByAux k seen as
    · simp only [if_neg h]
      refine List.Pairwise.cons (fun b hb => ?_) (pairwise_dedupByAux k _ as)
      have := dedupByAux_keys_fresh k _ as b hb
      intro hk
      exact this (hk ▸ List.mem_cons_self _ _)

theorem pairwise_dedupBy {α β : Type} [DecidableEq β] (k : α → β)
    (l : List α) : (dedupBy k l).Pairwise (fun a b => k a ≠ k b) :=
  pairwise_dedupByAux k [] l

theorem mem_sorted_of_mem_items {ctx : CompletionContext}
    {opts : CodeCompleteOptions} {fe : List Candidate} {typed : String}
    {idx : Option (String → List Symbol)} {it : CompletionItem}
    (h : it ∈ (complete ctx opts fe typed idx).items) :
    ∃ c ∈ sortedCandidates ctx opts fe typed idx, it = render opts c := by
  simp only [complete] at h
  split at h <;> simp only [List.mem_map] at h <;> obtain ⟨c, hc, rfl⟩ := h
  · exact ⟨c, List.mem_of_mem_take hc, rfl⟩
  · exact ⟨c, hc, rfl⟩

theorem mem_surviving_of_mem_sorted {ctx : CompletionContext}
    {opts : CodeCompleteOptions} {fe : List Candidate} {typed : String}
    {idx : Option (String → List Symbol)} {c : Candidate}
    (h : c ∈ sortedCandidates ctx opts fe typed idx) :
    c ∈ survivingCandidates ctx opts fe typed idx :=
  (List.perm_insertionSort _ _).subset h

theorem mem_items_complete {ctx : CompletionContext}
    {opts : CodeCompleteOptions} {fe : List Candidate} {typed : String}
    {idx : Option (String → List Symbol)} {it : CompletionItem}
    (h : it ∈ (complete ctx opts fe typed idx).items) :
    ∃ c ∈ survivingCandidates ctx opts fe typed idx, it = render opts c := by
  obtain ⟨c, hc, rfl⟩ := mem_sorted_of_mem_items h
  exact ⟨c, mem_surviving_of_mem_sorted hc, rfl⟩

theorem mem_surviving_elim {ctx : CompletionContext}
    {opts : CodeCompleteOptions} {fe : List Candidate} {typed : String}
    {idx : Option (String → List Symbol)} {c : Candidate}
    (h : c ∈ survivingCandidates ctx opts fe typed idx) :
    c ∈ collect ctx opts fe idx ∧ fuzzyMatches typed c.name = true := by
  unfold survivingCandidates at h
  have h' := List.mem_filter.1 h
  exact ⟨(dedupBy_sublist _ _).subset h'.1, h'.2⟩

theorem mem_collect_memberAccess {b : Bool} {opts : CodeCompleteOptions}
    {fe : List Candidate} {idx : Option (String → List Symbol)} {c : Candidate}
    (h : c ∈ collect (CompletionContext.memberAccess b) opts fe idx) :
    c ∈ fe ∧ eligible (CompletionContext.memberAccess b) opts c = true := by
  unfold collect at h
  exact ⟨List.mem_of_mem_filter h, List.of_mem_filter h⟩

theorem eligible_memberAccess_kind {b : Bool} {opts : CodeCompleteOptions}
    {c : Candidate}
    (h : eligible (CompletionContext.memberAccess b) opts c = true) :
    c.kind = CandKind.member := by
  unfold eligible at h
  simp only [Bool.and_eq_true] at h
  cases hk : c.kind <;> rw [hk] at h <;> simp_all

theorem eligible_memberAccess_access {opts : CodeCompleteOptions}
    {c : Candidate} (hir : opts.IncludeIneligibleResults = false)
    (h : eligible (CompletionContext.memberAccess false) opts c = true) :
    c.access = Access.pub := by
  have hk := eligible_memberAccess_kind h
  unfold eligible at h
  rw [hk] at h
  simp only [Bool.and_eq_true, Bool.or_eq_true, decide_eq_true_eq, hir] at h
  rcases h.2 with (h2 | h2) | h2
  · exact h2
  · exact absurd h2 Bool.false_ne_true
  · exact absurd h2 Bool.false_ne_true

theorem mem_collect_none {ctx : CompletionContext} {opts : CodeCompleteOptions}
    {fe : List Candidate} {c : Candidate}
    (h : c ∈ collect ctx opts fe none) : c ∈ fe := by
  cases ctx <;> exact List.mem_of_mem_filter h

theorem mem_collect_qualified_some {s : String} {opts : CodeCompleteOptions}
    {fe : List Candidate} {q : String → List Symbol} {c : Candidate}
    (h : c ∈ collect (CompletionContext.qualifiedScope s) opts fe (some q)) :
    (c ∈ fe ∧ c.fromPreamble = false) ∨
      ∃ sy ∈ (q s).filter (fun sy => decide (¬ sy.name = "")),
        c = symToCand sy := by
  unfold collect at h
  rcases List.mem_append.1 h with h1 | h2
  · left
    have hmem := List.mem_of_mem_filter h1
    have hpre := (List.mem_filter.1 h1).2
    simp only [Bool.not_eq_eq_eq_not, Bool.not_true] at hpre
    exact ⟨List.mem_of_mem_filter hmem, by simpa using hpre⟩
  · right
    simp only [List.mem_map] at h2
    obtain ⟨sy, hsy, rfl⟩ := h2
    exact ⟨sy, hsy, rfl⟩

theorem chDepth_nil : chDepth [] = 0 := rfl

theorem chDepth_cons (c : Char) (l : List Char) :
    chDepth (c :: l) = chDelta c + chDepth l := by
  unfold chDepth
  rw [List.map_cons, List.sum_cons]

theorem topCommaPos_nil (d : Int) : topCommaPos [] d = 0 := rfl

theorem topCommaPos_cons (c : Char) (cs : List Char) (d : Int) :
    topCommaPos (c :: cs) d =
      (if c = ',' ∧ d = 0 then 1 else 0) + topCommaPos cs (d + chDelta c) := by
  unfold topCommaPos
  rw [List.length_cons, List.range_succ_eq_map, List.countP_cons,
    List.countP_map]
  have h0 : (decide ((c :: cs)[(0 : Nat)]? = some ',' ∧
      d + chDepth (List.take 0 (c :: cs)) = 0)) =
      (decide (c = ',' ∧ d = 0)) := by
    simp [chDepth_nil]
  have h1 : ∀ i : Nat, (decide ((c :: cs)[i + 1]? = some ',' ∧
      d + chDepth (List.take (i + 1) (c :: cs)) = 0)) =
      (decide (cs[i]? = some ',' ∧ (d + chDelta c) + chDepth (List.take i cs) = 0)) := by
    intro i
    simp only [List.getElem?_cons_succ, List.take_succ_cons, chDepth_cons]
    rw [decide_eq_decide]
    constructor <;> intro h <;> exact ⟨h.1, by omega⟩
  rw [h0]
  have hfun : (fun i => decide ((c :: cs)[i]? = some ',' ∧
      d + chDepth (List.take i (c :: cs)) = 0)) ∘ Nat.succ =
      fun i => decide (cs[i]? = some ',' ∧ (d + chDelta c) + chDepth (List.take i cs) = 0) := by
    funext i
    exact h1 i
  rw [hfun]
  rcases Bool.eq_false_or_eq_true (decide (c = ',' ∧ d = 0)) with hb | hb
  · rw [if_pos hb, if_pos (of_decide_eq_true hb)]
    omega
  · rw [if_neg (by rw [hb]; exact Bool.false_ne_true),
      if_neg (of_decide_eq_false hb)]
    omega

theorem countTopCommas_eq_topCommaPos :
    ∀ (cs : List Char) (d : Nat), depthOk cs (d : Int) = true →
      countTopCommas cs d = topCommaPos cs (d : Int)
  | [], d, _ => by rw [countTopCommas, topCommaPos_nil]
  | c :: cs, d, h => by
    rw [countTopCommas, topCommaPos_cons]
    rw [depthOk, Bool.and_eq_true, decide_eq_true_eq] at h
    obtain ⟨hnn, hrest⟩ := h
    by_cases hp : c = '('
    · have hd : chDelta c = 1 := by rw [chDelta, if_pos hp]
      rw [if_pos hp]
      rw [hd] at hrest ⊢
      have hcast : ((d + 1 : Nat) : Int) = (d : Int) + 1 := by push_cast; ring
      rw [countTopCommas_eq_topCommaPos cs (d + 1) (by rw [hcast]; exact hrest)]
      have hcomma : ¬ (c = ',' ∧ (d : Int) = 0) := fun hc => by
        rw [hp] at hc
        exact absurd hc.1 (by decide)
      rw [if_neg hcomma, hcast]
      omega
    · by_cases hq : c = ')'
      · have hd : chDelta c = -1 := by rw [chDelta, if_neg hp, if_pos hq]
        rw [if_neg hp, if_pos hq]
        rw [hd] at hrest hnn ⊢
        have hpos : 1 ≤ d := by omega
        have hcast : ((d - 1 : Nat) : Int) = (d : Int) + -1 := by omega
        rw [countTopCommas_eq_topCommaPos cs (d - 1) (by rw [hcast]; exact hrest)]
        have hcomma : ¬ (c = ',' ∧ (d : Int) = 0) := fun hc => by
          rw [hq] at hc
          exact absurd hc.1 (by decide)
        rw [if_neg hcomma, hcast]
        omega
      · have hd : chDelta c = 0 := by rw [chDelta, if_neg hp, if_neg hq]
        rw [if_neg hp, if_neg hq]
        rw [hd] at hrest ⊢
        rw [Int.add_zero] at hrest ⊢
        rw [countTopCommas_eq_topCommaPos cs d hrest]
        by_cases hr : c = ','
        · rw [if_pos hr]
          by_cases hz : d = 0
          · rw [if_pos hz, if_pos ⟨hr, by exact_mod_cast congrArg Nat.cast hz⟩]
            omega
          · rw [if_neg hz, if_neg (fun hc : c = ',' ∧ (d : Int) = 0 => hz (by exact_mod_cast hc.2))]
            omega
        · rw [if_neg hr, if_neg (fun hc : c = ',' ∧ (d : Int) = 0 => hr hc.1)]
          omega

/-- C1: with `Limit = k > 0` and `n` surviving candidates, a completion
result has exactly `min k n` items and `isIncomplete = true` iff `n > k`;
in particular, member completion over AAA, BBB, CCC with `Limit = 2` returns
exactly [AAA, BBB] with `isIncomplete = true`. -/
theorem limit_and_incomplete :
    (∀ (ctx : CompletionContext) (opts : CodeCompleteOptions)
        (fe : List Candidate) (typed : String)
        (idx : Option (String → List Symbol)), 0 < opts.Limit →
      (complete ctx opts fe typed idx).items.length =
          min opts.Limit (survivingCandidates ctx opts fe typed idx).length ∧
        ((complete ctx opts fe typed idx).isIncomplete = true ↔
          opts.Limit < (survivingCandidates ctx opts fe typed idx).length)) ∧
    ((complete (CompletionContext.memberAccess false) limitOpts feLimit ""
          none).items.map (fun i => i.insertText) = ["AAA", "BBB"] ∧
      (complete (CompletionContext.memberAccess false) limitOpts feLimit ""
          none).isIncomplete = true) := by
  constructor
  · intro ctx opts fe typed idx hk
    have hlen : (sortedCandidates ctx opts fe typed idx).length =
        (survivingCandidates ctx opts fe typed idx).length :=
      (List.perm_insertionSort _ _).length_eq
    simp only [complete]
    by_cases hlt : opts.Limit < (sortedCandidates ctx opts fe typed idx).length
    · rw [if_pos ⟨hk, hlt⟩]
      rw [hlen] at hlt
      refine ⟨?_, ?_⟩
      · simp only [List.length_map, List.length_take, hlen]
      · exact ⟨fun _ => hlt, fun _ => rfl⟩
    · rw [if_neg (fun hc => hlt hc.2)]
      rw [hlen] at hlt
      simp only [List.length_map, hlen]
      refine ⟨by omega, ?_, ?_⟩
      · intro hfalse
        exact absurd hfalse Bool.false_ne_true
      · intro hgt
        exact absurd hgt hlt
  · exact ⟨by decide, by decide⟩

/-- Witness for `limit_and_incomplete`: its general part applied to the
AAA/BBB/CCC member scenario with `Limit = 2`. -/
theorem limit_and_incomplete_witness :
    0 < limitOpts.Limit ∧
      (complete (CompletionContext.memberAccess false) limitOpts feLimit ""
          none).items.length =
        min limitOpts.Limit
          (survivingCandidates (CompletionContext.memberAccess false) limitOpts
            feLimit "" none).length :=
  ⟨by decide,
    (limit_and_incomplete.1 (CompletionContext.memberAccess false) limitOpts
      feLimit "" none (by decide)).1⟩

theorem render_insert_starts_with_filter (opts : CodeCompleteOptions)
    (c : Candidate) :
    ∃ t : List Char,
      (render opts c).insertText.data = (render opts c).filterText.data ++ t := by
  simp only [render]
  by_cases hs : (!(opts.EnableSnippets && c.callable)) = true
  · rw [if_pos hs]
    exact ⟨[], (List.append_nil _).symm⟩
  · rw [if_neg hs]
    by_cases hp : c.params = []
    · rw [if_pos hp]
      exact ⟨"()".data, by rw [String.data_append]⟩
    · rw [if_neg hp]
      refine ⟨("(" ++ placeholderText 1 c.params ++ ")").data, ?_⟩
      simp only [String.data_append, List.append_assoc]

/-- C2: in every CompletionList returned by a completion request, an item
with non-empty `filterText` has that `filterText` as a substring of its
`insertText`. -/
theorem filterText_substring_of_insertText :
    ∀ (ctx : CompletionContext) (opts : CodeCompleteOptions)
      (fe : List Candidate) (typed : String)
      (idx : Option (String → List Symbol)) (it : CompletionItem),
      it ∈ (complete ctx opts fe typed idx).items → ¬ it.filterText = "" →
      it.filterText.data <:+: it.insertText.data := by
  intro ctx opts fe typed idx it hmem _
  obtain ⟨c, _, rfl⟩ := mem_items_complete hmem
  obtain ⟨t, ht⟩ := render_insert_starts_with_filter opts c
  exact ⟨[], t, by rw [List.nil_append, ht]⟩

/-- Witness for `filterText_substring_of_insertText`: the AAA item of the
Limit scenario. -/
theorem filterText_substring_witness :
    (render limitOpts (memberCand "AAA" "ClassWithMembers" Access.pub
        true)).filterText.data <:+:
      (render limitOpts (memberCand "AAA" "ClassWithMembers" Access.pub
        true)).insertText.data :=
  filterText_substring_of_insertText (CompletionContext.memberAccess false)
    limitOpts feLimit "" none _ (by decide) (by decide)

/-- C3: in a member-access context every returned item is the rendering of
a member candidate of the accessed type — no global variable, global
function, preprocessor name, or unrelated local class appears, whatever the
options; in particular the after-dot scenario with `IncludeGlobals` and
`IncludeMacros` on returns only `method` and `field`. -/
theorem member_context_exclusion :
    (∀ (b : Bool) (opts : CodeCompleteOptions) (fe : List Candidate)
        (typed : String) (idx : Option (String → List Symbol))
        (it : CompletionItem),
      it ∈ (complete (CompletionContext.memberAccess b) opts fe typed
        idx).items →
      it ∈ (fe.filter (fun c => decide (c.kind = CandKind.member))).map
        (render opts)) ∧
    ((complete (CompletionContext.memberAccess false) globalOpts feAfterDot ""
        none).items.map (fun i => i.insertText) = ["method", "field"]) := by
  constructor
  · intro b opts fe typed idx it hmem
    obtain ⟨c, hc, rfl⟩ := mem_items_complete hmem
    obtain ⟨hcol, _⟩ := mem_surviving_elim hc
    obtain ⟨hfe, helig⟩ := mem_collect_memberAccess hcol
    exact List.mem_map.2 ⟨c, List.mem_filter.2
      ⟨hfe, decide_eq_true (eligible_memberAccess_kind helig)⟩, rfl⟩
  · decide

/-- Witness for `member_context_exclusion`: the `method` item of the
after-dot scenario. -/
theorem member_context_exclusion_witness :
    render globalOpts (memberCand "method" "ClassWithMembers" Access.pub
        true) ∈
      (feAfterDot.filter (fun c => decide (c.kind = CandKind.member))).map
        (render globalOpts) :=
  member_context_exclusion.1 false globalOpts feAfterDot "" none _ (by decide)

/-- C4: a MergedIndex fuzzyFind never returns two entries with equal `id`,
and every entry is attributed to the source that really produced it; in
particular merging a dynamic index holding `ns::foo` with a static index
holding `ns::XYZ` and querying scope `ns` returns both symbols, each once,
each with its true origin. -/
theorem merged_index_unique_ids :
    (∀ (dynSyms statSyms : List Symbol) (q : String),
      (mergedFuzzyFind (buildIndex dynSyms) (buildIndex statSyms) q).Pairwise
        (fun a b => ¬ a.1.id = b.1.id)) ∧
    (∀ (dynSyms statSyms : List Symbol) (q : String) (x : Symbol),
      (x, SymOrigin.dynamic) ∈
          mergedFuzzyFind (buildIndex dynSyms) (buildIndex statSyms) q →
        x ∈ fuzzyFindIdx (buildIndex dynSyms) q) ∧
    (∀ (dynSyms statSyms : List Symbol) (q : String) (x : Symbol),
      (x, SymOrigin.static) ∈
          mergedFuzzyFind (buildIndex dynSyms) (buildIndex statSyms) q →
        x ∈ fuzzyFindIdx (buildIndex statSyms) q) ∧
    (mergedFuzzyFind (buildIndex [fooSym]) (buildIndex [xyzSym]) "ns" =
      [(fooSym, SymOrigin.dynamic), (xyzSym, SymOrigin.static)]) := by
  refine ⟨?_, ?_, ?_, ?_⟩
  · intro dynSyms statSyms q
    have pD : (fuzzyFindIdx (buildIndex dynSyms) q).Pairwise
        (fun a b => ¬ a.id = b.id) :=
      (pairwise_dedupBy Symbol.id dynSyms).filter _
    have pS : (fuzzyFindIdx (buildIndex statSyms) q).Pairwise
        (fun a b => ¬ a.id = b.id) :=
      (pairwise_dedupBy Symbol.id statSyms).filter _
    simp only [mergedFuzzyFind]
    refine List.pairwise_append.2 ⟨?_, ?_, ?_⟩
    · exact List.pairwise_map.2 pD
    · exact List.pairwise_map.2 (pS.filter _)
    · intro a ha b hb
      obtain ⟨x, hx, rfl⟩ := List.mem_map.1 ha
      obtain ⟨y, hy, rfl⟩ := List.mem_map.1 hb
      have hcond := (List.mem_filter.1 hy).2
      have := List.all_eq_true.1 hcond x hx
      exact of_decide_eq_true this
  · intro dynSyms statSyms q x hx
    simp only [mergedFuzzyFind] at hx
    rcases List.mem_append.1 hx with h | h
    · obtain ⟨y, hy, he⟩ := List.mem_map.1 h
      simp only [Prod.mk.injEq] at he
      exact he.1 ▸ hy
    · obtain ⟨y, hy, he⟩ := List.mem_map.1 h
      simp only [Prod.mk.injEq] at he
      exact absurd he.2 (fun hc => SymOrigin.noConfusion hc)
  · intro dynSyms statSyms q x hx
    simp only [mergedFuzzyFind] at hx
    rcases List.mem_append.1 hx with h | h
    · obtain ⟨y, hy, he⟩ := List.mem_map.1 h
      simp only [Prod.mk.injEq] at he
      exact absurd he.2 (fun hc => SymOrigin.noConfusion hc)
    · obtain ⟨y, hy, he⟩ := List.mem_map.1 h
      simp only [Prod.mk.injEq] at he
      exact he.1 ▸ List.mem_of_mem_filter hy
  · decide

/-- Witness for `merged_index_unique_ids`: the dynamic attribution applied
to `ns::foo` in the concrete merge scenario. -/
theorem merged_index_unique_ids_witness :
    fooSym ∈ fuzzyFindIdx (buildIndex [fooSym]) "ns" :=
  merged_index_unique_ids.2.1 [fooSym] [xyzSym] "ns" fooSym (by decide)

/-- C5: every signature-help result has `activeSignature = 0` and its
`activeParameter` is the number of top-level commas before the cursor
(commas nested inside balanced parenthesized sub-expressions do not count);
in particular for `baz(baz(1,2,3), ‸)` the active parameter is 1. -/
theorem signature_active_param :
    (∀ (ov : List SignatureInformation) (txt : String) (sh : SignatureHelp),
      signatureHelp ov txt = some sh → depthOk txt.data 0 = true →
      sh.activeSignature = 0 ∧ sh.activeParameter = topCommaPos txt.data 0) ∧
    (signatureHelp [bazSig] "baz(1,2,3), " =
      some { signatures := [bazSig], activeSignature := 0,
             activeParameter := 1 }) := by
  constructor
  · intro ov txt sh hsh hok
    cases ov with
    | nil => exact Option.noConfusion hsh
    | cons s ss =>
      rw [signatureHelp] at hsh
      obtain rfl := Option.some.inj hsh
      refine ⟨rfl, ?_⟩
      have := countTopCommas_eq_topCommaPos txt.data 0 (by simpa using hok)
      simpa using this
  · decide

/-- Witness for `signature_active_param`: the general part applied to the
`baz(baz(1,2,3), ` scenario. -/
theorem signature_active_param_witness :
    ({ signatures := [bazSig], activeSignature := 0, activeParameter := 1 } :
        SignatureHelp).activeSignature = 0 ∧
      ({ signatures := [bazSig], activeSignature := 0, activeParameter := 1 } :
        SignatureHelp).activeParameter = topCommaPos "baz(1,2,3), ".data 0 :=
  signature_active_param.1 [bazSig] "baz(1,2,3), " _ (by decide) (by decide)

/-- C6: every returned item comes from a collected candidate whose name
fuzzy-matches the typed token; in particular for the candidate set
BigBang, Babble, Ball filtered by `bb` the result is exactly
[BigBang, Babble], in that order, with Ball excluded. -/
theorem fuzzy_ranking :
    (∀ (ctx : CompletionContext) (opts : CodeCompleteOptions)
        (fe : List Candidate) (typed : String)
        (idx : Option (String → List Symbol)) (it : CompletionItem),
      it ∈ (complete ctx opts fe typed idx).items →
      it ∈ ((collect ctx opts fe idx).filter
          (fun c => fuzzyMatches typed c.name)).map (render opts)) ∧
    ((complete (CompletionContext.memberAccess false) plainOpts feFuzzy "bb"
        none).items.map (fun i => i.insertText) = ["BigBang", "Babble"]) := by
  constructor
  · intro ctx opts fe typed idx it hmem
    obtain ⟨c, hc, rfl⟩ := mem_items_complete hmem
    obtain ⟨hcol, hfz⟩ := mem_surviving_elim hc
    exact List.mem_map.2 ⟨c, List.mem_filter.2 ⟨hcol, hfz⟩, rfl⟩
  · decide

/-- Witness for `fuzzy_ranking`: the BigBang item of the fuzzy scenario. -/
theorem fuzzy_ranking_witness :
    render plainOpts (memberCand "BigBang" "fake" Access.pub false) ∈
      ((collect (CompletionContext.memberAccess false) plainOpts feFuzzy
          none).filter (fun c => fuzzyMatches "bb" c.name)).map
        (render plainOpts) :=
  fuzzy_ranking.1 (CompletionContext.memberAccess false) plainOpts feFuzzy
    "bb" none _ (by decide)

/-- C7: member completion on an external object reference (outside the
class, without `IncludeIneligibleResults`) only returns public members;
completion inside the class's own method body returns public, protected and
private members ordered private, protected, public when equally relevant. -/
theorem access_filtering :
    (∀ (opts : CodeCompleteOptions) (fe : List Candidate) (typed : String)
        (idx : Option (String → List Symbol)) (it : CompletionItem),
      opts.IncludeIneligibleResults = false →
      it ∈ (complete (CompletionContext.memberAccess false) opts fe typed
        idx).items →
      it ∈ (fe.filter (fun c => decide (c.access = Access.pub))).map
        (render opts)) ∧
    ((complete (CompletionContext.memberAccess true) plainOpts feFoo ""
          none).items.map (fun i => i.insertText) = ["priv", "prot", "pub"] ∧
      (complete (CompletionContext.memberAccess false) plainOpts feFoo ""
          none).items.map (fun i => i.insertText) = ["pub"]) := by
  constructor
  · intro opts fe typed idx it hir hmem
    obtain ⟨c, hc, rfl⟩ := mem_items_complete hmem
    obtain ⟨hcol, _⟩ := mem_surviving_elim hc
    obtain ⟨hfe, helig⟩ := mem_collect_memberAccess hcol
    exact List.mem_map.2 ⟨c, List.mem_filter.2
      ⟨hfe, decide_eq_true (eligible_memberAccess_access hir helig)⟩, rfl⟩
  · exact ⟨by decide, by decide⟩

/-- Witness for `access_filtering`: the public member of the external
Priorities scenario. -/
theorem access_filtering_witness :
    render plainOpts (memberCand "pub" "Foo" Access.pub true) ∈
      (feFoo.filter (fun c => decide (c.access = Access.pub))).map
        (render plainOpts) :=
  access_filtering.1 plainOpts feFoo "" none _ rfl (by decide)

/-- C8: the candidates behind any completion result are pairwise distinct
on (name, scope, overload signature); in particular the Adapter scenario,
where two lookup passes both contribute `Adapter`, yields exactly one
`Adapter` entry and one `~Adapter` entry. -/
theorem no_duplicate_entries :
    (∀ (ctx : CompletionContext) (opts : CodeCompleteOptions)
        (fe : List Candidate) (typed : String)
        (idx : Option (String → List Symbol)),
      (sortedCandidates ctx opts fe typed idx).Pairwise
        (fun a b => ¬ candKey a = candKey b)) ∧
    ((complete CompletionContext.unqualified plainOpts feAdapter "Adapter"
        none).items.map (fun i => i.insertText) = ["Adapter", "~Adapter"]) := by
  constructor
  · intro ctx opts fe typed idx
    have hsurv : (survivingCandidates ctx opts fe typed idx).Pairwise
        (fun a b => ¬ candKey a = candKey b) :=
      (pairwise_dedupBy candKey _).filter _
    have hperm := List.perm_insertionSort
      (fun a b => rankBefore typed a b = true)
      (survivingCandidates ctx opts fe typed idx)
    exact (hperm.pairwise_iff (fun h he => h he.symm)).2 hsurv
  · decide

/-- C9: with no index supplied, completion still succeeds and every item is
rendered from a Frontend-visible candidate; in particular qualified-scope
completion of `ns::` with only `ns::Local` visible returns `Local`. -/
theorem no_index_completion :
    (∀ (ctx : CompletionContext) (opts : CodeCompleteOptions)
        (fe : List Candidate) (typed : String) (it : CompletionItem),
      it ∈ (complete ctx opts fe typed none).items →
      it ∈ fe.map (render opts)) ∧
    ((complete (CompletionContext.qualifiedScope "ns") plainOpts feLocalNs ""
        none).items.map (fun i => i.insertText) = ["Local"]) := by
  constructor
  · intro ctx opts fe typed it hmem
    obtain ⟨c, hc, rfl⟩ := mem_items_complete hmem
    obtain ⟨hcol, _⟩ := mem_surviving_elim hc
    exact List.mem_map.2 ⟨c, mem_collect_none hcol, rfl⟩
  · decide

/-- Witness for `no_index_completion`: the `Local` item of the NoIndex
scenario. -/
theorem no_index_completion_witness :
    render plainOpts (localCand "Local" "ns") ∈
      feLocalNs.map (render plainOpts) :=
  no_index_completion.1 (CompletionContext.qualifiedScope "ns") plainOpts
    feLocalNs "" _ (by decide)

/-- C10: when an index is supplied, qualified-scope completion draws from
the non-preamble Frontend candidates plus the index — preamble-sourced
candidates are suppressed; in particular the scenario returns
[local, preamble] without an index and [local, index] with one. -/
theorem index_suppresses_preamble :
    (∀ (s : String) (opts : CodeCompleteOptions) (fe : List Candidate)
        (typed : String) (q : String → List Symbol) (it : CompletionItem),
      it ∈ (complete (CompletionContext.qualifiedScope s) opts fe typed
        (some q)).items →
      it ∈ ((fe.filter (fun c => !c.fromPreamble)).map (render opts) ++
        ((q s).filter (fun sy => decide (¬ sy.name = ""))).map
          (fun sy => render opts (symToCand sy)))) ∧
    ((complete (CompletionContext.qualifiedScope "ns") plainOpts
          feWithPreamble "" none).items.map (fun i => i.insertText) =
        ["local", "preamble"] ∧
      (complete (CompletionContext.qualifiedScope "ns") plainOpts
          feWithPreamble "" (some idxNs)).items.map (fun i => i.insertText) =
        ["local", "index"]) := by
  constructor
  · intro s opts fe typed q it hmem
    obtain ⟨c, hc, rfl⟩ := mem_items_complete hmem
    obtain ⟨hcol, _⟩ := mem_surviving_elim hc
    rcases mem_collect_qualified_some hcol with ⟨hfe, hpre⟩ | ⟨sy, hsy, rfl⟩
    · refine List.mem_append.2 (Or.inl (List.mem_map.2 ⟨c,
        List.mem_filter.2 ⟨hfe, ?_⟩, rfl⟩))
      rw [hpre]
      rfl
    · exact List.mem_append.2 (Or.inr (List.mem_map.2 ⟨sy, hsy, rfl⟩))
  · exact ⟨by decide, by decide⟩

/-- Witness for `index_suppresses_preamble`: the `local` item of the
with-index scenario. -/
theorem index_suppresses_preamble_witness :
    render plainOpts (localCand "local" "ns") ∈
      ((feWithPreamble.filter (fun c => !c.fromPreamble)).map
          (render plainOpts) ++
        ((idxNs "ns").filter (fun sy => decide (¬ sy.name = ""))).map
          (fun sy => render plainOpts (symToCand sy))) :=
  index_suppresses_preamble.1 "ns" plainOpts feWithPreamble "" idxNs _
    (by decide)

/-- Witness for `no_duplicate_entries`: its general part applied to the
Adapter scenario. -/
theorem no_duplicate_entries_witness :
    (sortedCandidates CompletionContext.unqualified plainOpts feAdapter
        "Adapter" none).Pairwise (fun a b => ¬ candKey a = candKey b) :=
  no_duplicate_entries.1 CompletionContext.unqualified plainOpts feAdapter
    "Adapter" none

end Clangd
